import Mathlib

/-!
Verification development for the slog human formatter (`internal/humanfmt`)
and the synchronized sink wrapper (`syncwriter`).

The Go source is shallowly embedded: pure functions become Lean functions,
the panic paths become `Option` (with `none` marking a fault), and the
external collaborators that are not part of the source tree
(the quoting helpers, the field encoder, the JSON marshaller and the
field pretty printer) are either modelled from the specification or taken
as function parameters, as noted on each definition.
-/

namespace slog

/-- Log level, from the external slog package (an input contract for the
formatter).  The six canonical levels are a closed set; the `other`
constructor carries the text of a level value outside that set, so that
the behaviour of the formatter on a contract-violating producer can be
stated. -/
inductive Level where
  | debug
  | info
  | warn
  | error
  | critical
  | fatal
  | other (s : String)
deriving DecidableEq

/-- Modelled from the spec: the canonical short name of a level
(the level enumeration itself is an external collaborator; the spec calls
these the canonical short names). -/
def Level.string : Level → String
  | .debug => "DEBUG"
  | .info => "INFO"
  | .warn => "WARN"
  | .error => "ERROR"
  | .critical => "CRITICAL"
  | .fatal => "FATAL"
  | .other s => s

/-- Whether a level belongs to the fixed six-element set. -/
def Level.known : Level → Bool
  | .other _ => false
  | _ => true

/-- Tracing context, embedding opencensus trace.SpanContext: a trace id,
a span id and trace options.  The all-zero value is the empty sentinel
the Go code compares against. -/
structure SpanContext where
  traceID : Nat
  spanID : Nat
  traceOptions : Nat
deriving DecidableEq

/-- The empty sentinel value, embedding the Go zero value
trace.SpanContext\x7b\x7d. -/
def SpanContext.empty : SpanContext := ⟨0, 0, 0⟩

end slog

namespace slogval

/-- An encoded field value.  The external encoder produces a tree of
scalars, ordered maps and lists; the claims under study only inspect
field names, so values are carried as an uninspected tree. -/
inductive Value where
  | scalar (s : String)
  | omap (fields : List (String × Value))
  | arr (elems : List Value)

/-- One encoded field: a name and a value (slogval.Field). -/
structure Field where
  name : String
  value : Value

/-- An encoded ordered map (slogval.Map): an ordered list of fields. -/
def Map := List Field

/-- Modelled from the spec: the external black-box encoder
slogval.Encode, absent from the source tree.  The spec states the fields
sequence is encoded in insertion order into a map-like value, and that
an empty or non-map result causes nothing further to be appended; this
is modelled by returning the field sequence itself when non-empty, and
no map when the sequence is empty. -/
def Encode (fs : List Field) : Option Map :=
  if fs.isEmpty then none else some fs

end slogval

/-- Calendar time with millisecond precision, the part of a Go time.Time
that the layout Jan 02 15:04:05.000 renders: month (1-12), day, hour,
minute, second, millisecond. -/
structure GoTime where
  month : Nat
  day : Nat
  hour : Nat
  minute : Nat
  sec : Nat
  millis : Nat
deriving DecidableEq

namespace slog

/-- A log entry (slog.Entry), the formatter input. -/
structure Entry where
  time : GoTime
  level : Level
  component : String
  message : String
  file : String
  line : Nat
  spanContext : SpanContext
  fields : List slogval.Field

end slog

namespace humanfmt

/-- Same as time.StampMilli but the days in the month padded by zeros
(the layout constant from the source). -/
def timestampMilli : String := "Jan 02 15:04:05.000"

/-- Go zero-padding to width two, the semantics of the 02, 15, 04, 05
layout verbs for values below 100. -/
def pad2 (n : Nat) : String :=
  if n < 10 then "0" ++ toString n else toString n

/-- Go zero-padding to width three, the semantics of the .000 layout verb
for values below 1000. -/
def pad3 (n : Nat) : String :=
  if n < 10 then "00" ++ toString n
  else if n < 100 then "0" ++ toString n
  else toString n

/-- Three-letter month abbreviation, the semantics of the Jan layout
verb. -/
def monthAbbr : Nat → String
  | 1 => "Jan"
  | 2 => "Feb"
  | 3 => "Mar"
  | 4 => "Apr"
  | 5 => "May"
  | 6 => "Jun"
  | 7 => "Jul"
  | 8 => "Aug"
  | 9 => "Sep"
  | 10 => "Oct"
  | 11 => "Nov"
  | 12 => "Dec"
  | _ => "%!Month"

/-- The Go expression ent.Time.Format(timestampMilli): the layout
Jan 02 15:04:05.000 interpreted by the Go time package on the given
calendar time. -/
def formatStampMilli (t : GoTime) : String :=
  monthAbbr t.month ++ " " ++ pad2 t.day ++ " " ++
    pad2 t.hour ++ ":" ++ pad2 t.minute ++ ":" ++ pad2 t.sec ++
    "." ++ pad3 t.millis

/-- Whether a character is not safe for unquoted display (whitespace,
control or quote characters). -/
def needsQuoteChar (c : Char) : Bool :=
  c = ' ' || c = '"' || c.toNat < 32 || c.toNat = 127

/-- Escape of one character inside a quoted string: internal quotes and
backslashes are escaped, everything else is verbatim. -/
def escapeChar (c : Char) : String :=
  if c = '"' then "\\\"" else if c = '\\' then "\\\\" else String.mk [c]

/-- Modelled from the spec: the quoting helper quote, absent from the
source tree.  The message string is quoted only if it contains
characters not safe for unquoted display, else left bare; when quoted,
internal quotes are escaped. -/
def quote (s : String) : String :=
  if s.toList.any needsQuoteChar then
    "\"" ++ String.join (s.toList.map escapeChar) ++ "\""
  else s

/-- Modelled from the spec: the key-quoting helper quoteKey, absent from
the source tree.  The spec states the component is passed through a
key-quoting rule that quotes the string only if it contains whitespace
or control or quote characters, else leaves it bare: the same rule as
quote. -/
def quoteKey (s : String) : String :=
  if s.toList.any needsQuoteChar then
    "\"" ++ String.join (s.toList.map escapeChar) ++ "\""
  else s

/-- The fatih color attribute codes used by the formatter. -/
def fgRed : Nat := 31
def fgGreen : Nat := 32
def fgYellow : Nat := 33
def fgBlue : Nat := 34
def fgMagenta : Nat := 35
def fgHiRed : Nat := 91

/-- The Go expression color.New(attr).Sprint(s): the string wrapped in
the ANSI escape sequence for the attribute. -/
def colorSprint (attr : Nat) (s : String) : String :=
  "\x1b[" ++ toString attr ++ "m" ++ s ++ "\x1b[0m"

/-- levelColor from the source: the fixed level-to-color table.  The Go
function panics on a level outside the fixed set; the panic is embedded
as `none`. -/
def levelColor : slog.Level → Option Nat
  | .debug | .info => some fgBlue
  | .warn => some fgYellow
  | .error => some fgRed
  | .critical | .fatal => some fgHiRed
  | .other _ => none

/-- The Go expression filepath.Base(path): the last element of the path,
with trailing slashes removed; "." for the empty path, "/" when the path
is all slashes. -/
def filepathBase (path : String) : String :=
  if path = "" then "."
  else
    let r := path.toList.reverse.dropWhile (fun c => c = '/')
    if r = [] then "/"
    else String.mk ((r.takeWhile (fun c => c ≠ '/')).reverse)

/-- The synthetic trace and span fields the formatter prepends when the
span context is non-empty (lines 47-50 of the source). -/
def traceFields (sc : slog.SpanContext) : List slogval.Field :=
  [⟨"trace", .scalar (toString sc.traceID)⟩,
   ⟨"span", .scalar (toString sc.spanID)⟩]

/-- The field sequence handed to the encoder: the source reassigns
ent.Fields to the two synthetic tracing fields followed by the original
fields when ent.SpanContext is not the zero value, and leaves it alone
otherwise. -/
def fieldsForEncoding (ent : slog.Entry) : List slogval.Field :=
  if ent.spanContext ≠ slog.SpanContext.empty then
    traceFields ent.spanContext ++ ent.fields
  else ent.fields

/-- The colorized level text: ent.Level.String(), wrapped per the level
color table when color is enabled.  `none` embeds the levelColor panic. -/
def levelText (ent : slog.Entry) (enableColor : Bool) : Option String :=
  if enableColor then
    (levelColor ent.level).map (fun a => colorSprint a ent.level.string)
  else some ent.level.string

/-- The location text basename(file):line, colorized green when color is
enabled. -/
def locText (ent : slog.Entry) (enableColor : Bool) : String :=
  let loc := filepathBase ent.file ++ ":" ++ toString ent.line
  if enableColor then colorSprint fgGreen loc else loc

/-- The inner component text: the component passed through quoteKey,
colorized magenta when color is enabled. -/
def componentText (ent : slog.Entry) (enableColor : Bool) : String :=
  let c := quoteKey ent.component
  if enableColor then colorSprint fgMagenta c else c

/-- The header of the formatted entry, mirroring lines 19-44 of the
source: level tag, location tag, optional component tag, timestamp and
message, accumulated left to right.  `none` embeds the levelColor
panic. -/
def entryHeader (ent : slog.Entry) (enableColor : Bool) : Option String :=
  (levelText ent enableColor).map (fun level =>
    let ents := "[" ++ level ++ "] "
    let ents := ents ++ "\x7b" ++ locText ent enableColor ++ "\x7d "
    let ents :=
      if ent.component ≠ "" then
        ents ++ "(" ++ componentText ent enableColor ++ ") "
      else ents
    let ents := ents ++ formatStampMilli ent.time
    ents ++ ": " ++ quote ent.message)

/-- Entry from the source: the human readable format of ent.  The field
pretty printer fmtVal and the JSON marshaller json.Marshal are external
collaborators absent from the source tree and are taken as parameters
(`jm` returns `none` when marshalling errors); `jsonTest` is the global
slogval.JSONTest flag.  The result is `none` exactly when the Go
function panics: an unknown level under color, or the out-of-range index
m[2] in the JSONTest branch. -/
def Entry (fv : slogval.Map → String) (jm : slogval.Map → Option String)
    (jsonTest : Bool) (ent : slog.Entry) (enableColor : Bool) :
    Option String :=
  match entryHeader ent enableColor with
  | none => none
  | some ents =>
    match slogval.Encode (fieldsForEncoding ent) with
    | none => some ents
    | some m =>
      if jsonTest then
        if h : 2 < m.length then
          let errVal := m.get ⟨2, h⟩
          let m2 := m.take 2 ++ m.drop 3
          let ents :=
            match jm m2 with
            | some fields => ents ++ "\n" ++ fields
            | none => ents
          some (ents ++ "\n" ++ fv [⟨"error", errVal.value⟩])
        else none
      else
        some (ents ++ "\n" ++ fv m)

/-- One token of the formatted header, in source order: the bracketed
level tag, the braced location tag, the parenthesized component tag, the
bare timestamp, and the colon-prefixed message. -/
inductive Tok where
  | lvl (s : String)
  | loc (s : String)
  | comp (s : String)
  | ts (s : String)
  | msg (s : String)

/-- The text of one header token. -/
def Tok.render : Tok → String
  | .lvl s => "[" ++ s ++ "] "
  | .loc s => "\x7b" ++ s ++ "\x7d "
  | .comp s => "(" ++ s ++ ") "
  | .ts s => s
  | .msg s => ": " ++ s

/-- Whether a token is the parenthesized component token. -/
def Tok.isComp : Tok → Bool
  | .comp _ => true
  | _ => false

/-- The header decomposed into its tokens, in the order the source
appends them; `lv` is the (possibly colorized) level text.  The
component token is present exactly when the component is non-empty. -/
def entryTokens (lv : String) (ent : slog.Entry) (enableColor : Bool) :
    List Tok :=
  [.lvl lv, .loc (locText ent enableColor)] ++
    (if ent.component ≠ "" then [.comp (componentText ent enableColor)]
     else []) ++
    [.ts (formatStampMilli ent.time), .msg (quote ent.message)]

/-- Rendering of a token list: the concatenation of the token texts. -/
def renderToks : List Tok → String
  | [] => ""
  | t :: ts => t.render ++ renderToks ts

/-- The names of the fields in the encoded field block of an entry, or
the empty list when no field block is rendered. -/
def entryMapKeys (ent : slog.Entry) : List String :=
  match slogval.Encode (fieldsForEncoding ent) with
  | some m => m.map slogval.Field.name
  | none => []

end humanfmt

namespace syncwriter

/-- A Go error value as seen by the sync path: the three syscall error
numbers the source names, or any other error text.  `Option GoErr`
stands for a Go error result, with `none` the nil error. -/
inductive GoErr where
  | einval
  | enotty
  | ebadf
  | other (s : String)
deriving DecidableEq

/-- The Go expression errors.Is(err, target) for the error values above:
nil matches no target, a non-nil error matches an equal target. -/
def errorsIs : Option GoErr → GoErr → Bool
  | none, _ => false
  | some e, t => e = t

/-- errorsIsAny from the source: whether errors.Is holds of any of the
targets. -/
def errorsIsAny (err : Option GoErr) (errs : List GoErr) : Bool :=
  errs.any (fun e => errorsIs err e)

/-- The Go rendering fmt.Sprintf of an error with %+v: the error text,
or the literal nil marker for a nil error. -/
def errText : Option GoErr → String
  | none => "<nil>"
  | some .einval => "invalid argument"
  | some .enotty => "inappropriate ioctl for device"
  | some .ebadf => "bad file descriptor"
  | some (.other s) => s

/-- The wrapped sink of a Writer, described by the capabilities the sync
path inspects: whether the dynamic type implements the syncer interface,
whether it is a plain opened file (an os.File), and the error its Sync
method returns when invoked (`none` is the nil error, meaning the flush
succeeded). -/
structure Sink where
  hasSyncer : Bool
  isOsFile : Bool
  syncErr : Option GoErr
deriving DecidableEq

/-- Writer from the source: the concurrency-safe wrapper around one
sink.  The mutex is modelled separately by the scheduler in the
`syncmodel` namespace; the sequential sync logic only needs the sink. -/
structure Writer where
  w : Sink
deriving DecidableEq

/-- Writer.Sync from the source, embedded as the report it emits on the
process diagnostic stream: `some msg` when the println fires with that
message, `none` when the call returns silently.  The Go function itself
returns nothing and never raises; this embedding captures its one
observable effect besides the flush itself. -/
def Writer.Sync (w : Writer) (sinkName : String) : Option String :=
  if ¬ w.w.hasSyncer then none
  else
    let err := w.w.syncErr
    if w.w.isOsFile ∧
        errorsIsAny err [GoErr.einval, GoErr.enotty, GoErr.ebadf] then
      none
    else
      some ("failed to sync " ++ sinkName ++ ": " ++ errText err)

end syncwriter

namespace gomem

/-- A heap of Go backing arrays; an array is named by its index in the
heap. -/
abbrev Store (α : Type) : Type := List (List α)

/-- A Go slice value: backing array name, offset, length and capacity. -/
structure Slice where
  arr : Nat
  off : Nat
  len : Nat
  cap : Nat

/-- The contents of the named backing array (empty for a dangling
name). -/
def readArr : Store α → Nat → List α
  | [], _ => []
  | a :: _, 0 => a
  | _ :: h, n + 1 => readArr h n

/-- The elements a slice views: len elements of its backing array
starting at its offset. -/
def readSlice (h : Store α) (s : Slice) : List α :=
  ((readArr h s.arr).drop s.off).take s.len

/-- Overwrite the range of an array starting at i with the given
elements. -/
def writeAt (l : List α) (i : Nat) (xs : List α) : List α :=
  l.take i ++ xs ++ l.drop (i + xs.length)

/-- Replace the named backing array in the heap. -/
def setArr (h : Store α) (i : Nat) (a : List α) : Store α :=
  List.set h i a

/-- Go append(s, xs...): write in place into the backing array when the
capacity suffices, otherwise allocate a fresh backing array holding the
old elements followed by the new ones. -/
def sliceAppend (h : Store α) (s : Slice) (xs : List α) :
    Store α × Slice :=
  if s.len + xs.length ≤ s.cap then
    let a := readArr h s.arr
    (setArr h s.arr (writeAt a (s.off + s.len) xs),
     ⟨s.arr, s.off, s.len + xs.length, s.cap⟩)
  else
    let d := readSlice h s ++ xs
    (h ++ [d], ⟨h.length, 0, d.length, d.length⟩)

/-- A fresh slice literal: a new backing array holding exactly the given
elements, with length equal to capacity. -/
def allocSlice (h : Store α) (xs : List α) : Store α × Slice :=
  (h ++ [xs], ⟨h.length, 0, xs.length, xs.length⟩)

/-- Lines 47-50 of the source at the memory level: the slice expression
append(slog.Map(trace, span), ent.Fields...) — a fresh two-element
slice literal for the synthetic fields, then a Go append of the elements
of the fields slice held by the caller. -/
def prependFields (h : Store α) (tf : List α) (fields : Slice) :
    Store α × Slice :=
  let p := allocSlice h tf
  sliceAppend p.1 p.2 (readSlice p.1 fields)

end gomem

namespace syncmodel

/-- One operation a producer thread performs against the shared Writer:
a Write of a byte payload, or a Sync. -/
inductive Op where
  | write (p : List Nat)
  | sync

/-- The phase of one thread: outside any call, inside a Write holding
the mutex (bytes already transferred, bytes still to transfer), or
inside a Sync holding the mutex. -/
inductive Phase where
  | idle
  | writing (dn rem : List Nat)
  | syncing
deriving DecidableEq

/-- One thread: its remaining operations, its phase, and the number of
calls it has completed or started (used to tag the bytes of each call). -/
structure TSt where
  prog : List Op
  phase : Phase
  next : Nat

/-- The shared system: all threads, the mutex owner, and the destination
buffer.  Each buffered byte is tagged with the thread and call that
wrote it. -/
structure Sys where
  th : Nat → TSt
  owner : Option Nat
  buf : List (Nat × Nat × Nat)

/-- Pointwise update of the thread map. -/
def upd (f : Nat → TSt) (t : Nat) (st : TSt) : Nat → TSt :=
  fun u => if u = t then st else f u

/-- Interleaving semantics of the Writer: Write acquires the mutex,
transfers its payload byte by byte into the buffer, and releases;
Sync acquires the same mutex and releases it.  Acquisition requires the
mutex to be free. -/
inductive Step : Sys → Sys → Prop where
  | lockWrite (s : Sys) (t : Nat) (p : List Nat) (rest : List Op) :
      (s.th t).phase = .idle → (s.th t).prog = .write p :: rest →
      s.owner = none →
      Step s ⟨upd s.th t ⟨rest, .writing [] p, (s.th t).next⟩,
              some t, s.buf⟩
  | writeByte (s : Sys) (t : Nat) (dn : List Nat) (b : Nat)
      (rem : List Nat) :
      (s.th t).phase = .writing dn (b :: rem) →
      Step s ⟨upd s.th t ⟨(s.th t).prog, .writing (dn ++ [b]) rem,
                (s.th t).next⟩,
              s.owner, s.buf ++ [(t, (s.th t).next, b)]⟩
  | unlockWrite (s : Sys) (t : Nat) (dn : List Nat) :
      (s.th t).phase = .writing dn [] →
      Step s ⟨upd s.th t ⟨(s.th t).prog, .idle, (s.th t).next + 1⟩,
              none, s.buf⟩
  | lockSync (s : Sys) (t : Nat) (rest : List Op) :
      (s.th t).phase = .idle → (s.th t).prog = .sync :: rest →
      s.owner = none →
      Step s ⟨upd s.th t ⟨rest, .syncing, (s.th t).next⟩, some t, s.buf⟩
  | unlockSync (s : Sys) (t : Nat) :
      (s.th t).phase = .syncing →
      Step s ⟨upd s.th t ⟨(s.th t).prog, .idle, (s.th t).next + 1⟩,
              none, s.buf⟩

/-- Reachability: the reflexive transitive closure of the step
relation. -/
def Reaches : Sys → Sys → Prop := Relation.ReflTransGen Step

/-- The initial system: every thread idle with its program ahead of it,
the mutex free, the buffer empty. -/
def init (progs : Nat → List Op) : Sys :=
  ⟨fun t => ⟨progs t, .idle, 0⟩, none, []⟩

/-- The bytes one call contributed: thread, call index, payload bytes
written so far. -/
structure Block where
  t : Nat
  i : Nat
  data : List Nat

/-- The tagged bytes of a block as they appear in the buffer. -/
def renderBlock (b : Block) : List (Nat × Nat × Nat) :=
  b.data.map (fun x => (b.t, b.i, x))

/-- The tag of a block: which call of which thread. -/
def tag (b : Block) : Nat × Nat := (b.t, b.i)

/-- The tag of one buffered byte. -/
def tagOf (x : Nat × Nat × Nat) : Nat × Nat := (x.1, x.2.1)

/-- The bytes carrying a given tag form one contiguous run of the
list. -/
def ContiguousTag (l : List (Nat × Nat × Nat)) (tg : Nat × Nat) : Prop :=
  ∃ pre mid post, l = pre ++ mid ++ post ∧
    (∀ x ∈ mid, tagOf x = tg) ∧
    (∀ x ∈ pre, tagOf x ≠ tg) ∧
    (∀ x ∈ post, tagOf x ≠ tg)

/-- The mutex invariant: any thread inside a call owns the mutex. -/
def InvM (s : Sys) : Prop :=
  ∀ t, (s.th t).phase ≠ .idle → s.owner = some t

/-- The buffer invariant: the buffer is a sequence of complete blocks of
finished calls followed by the open block of the in-flight write, the
finished blocks carry call indices below the counters of their threads, all
block tags are distinct, and the open block mirrors the in-flight
transferred bytes of that writer. -/
def InvB (s : Sys) : Prop :=
  ∃ completed : List Block, ∃ cur : Option Block,
    s.buf = (completed.map renderBlock).flatten ++
      (match cur with | none => [] | some b => renderBlock b) ∧
    (∀ b ∈ completed, b.i < (s.th b.t).next) ∧
    (completed.map tag).Nodup ∧
    (match cur with
     | none => ∀ t dn rem, (s.th t).phase = .writing dn rem → dn = []
     | some b => b.data ≠ [] ∧ b.i = (s.th b.t).next ∧
         ∃ rem, (s.th b.t).phase = .writing b.data rem)

/-- The full inductive invariant. -/
def Inv (s : Sys) : Prop := InvM s ∧ InvB s

end syncmodel

namespace wdata

/-- Trivial field pretty printer used to instantiate the external
parameter in concrete evaluations. -/
def fv0 : slogval.Map → String := fun _ => "E"

/-- Trivial JSON marshaller (always erroring) used to instantiate the
external parameter in concrete evaluations. -/
def jm0 : slogval.Map → Option String := fun _ => none

/-- A fixed calendar time: January 1, 00:00:00.000. -/
def t0 : GoTime := ⟨1, 1, 0, 0, 0, 0⟩

/-- A plain entry: known level, no component, no span, no fields. -/
def entPlain : slog.Entry :=
  ⟨t0, .info, "", "hello", "srv/f.go", 42, .empty, []⟩

/-- An entry whose level lies outside the fixed six-element set. -/
def entBadLevel : slog.Entry :=
  ⟨t0, .other "TRACE", "", "m", "f.go", 1, .empty, []⟩

/-- An entry with empty span context whose caller supplied a field
named trace. -/
def entTraceKey : slog.Entry :=
  ⟨t0, .info, "", "m", "f.go", 1, .empty, [⟨"trace", .scalar "t"⟩]⟩

/-- An entry with a non-empty span context and one caller field. -/
def entSpan : slog.Entry :=
  ⟨t0, .info, "", "m", "f.go", 1, ⟨1, 2, 0⟩, [⟨"k", .scalar "v"⟩]⟩

/-- An entry with a non-empty component. -/
def entComp : slog.Entry :=
  ⟨t0, .warn, "db", "hi", "a/b.go", 7, .empty, []⟩

/-- An entry with two fields: the JSONTest path faults on it. -/
def entSmallMap : slog.Entry :=
  ⟨t0, .info, "", "m", "f.go", 1, .empty,
   [⟨"a", .scalar "1"⟩, ⟨"b", .scalar "2"⟩]⟩

/-- An entry with three fields: the JSONTest path renders it. -/
def entBigMap : slog.Entry :=
  ⟨t0, .info, "", "m", "f.go", 1, .empty,
   [⟨"a", .scalar "1"⟩, ⟨"b", .scalar "2"⟩, ⟨"c", .scalar "3"⟩]⟩

end wdata

theorem renderToks_append (a b : List humanfmt.Tok) :
    humanfmt.renderToks (a ++ b) =
      humanfmt.renderToks a ++ humanfmt.renderToks b := by
  induction a with
  | nil => simp [humanfmt.renderToks]
  | cons t ts ih => simp [humanfmt.renderToks, ih, String.append_assoc]

theorem entryHeader_decomp (ent : slog.Entry) (ec : Bool) (lv : String)
    (h : humanfmt.levelText ent ec = some lv) :
    humanfmt.entryHeader ent ec =
      some (humanfmt.renderToks (humanfmt.entryTokens lv ent ec)) := by
  unfold humanfmt.entryHeader
  rw [h, Option.map_some']
  by_cases hc : ent.component = ""
  · simp only [hc, ne_eq, not_true_eq_false, if_false, List.append_nil,
      List.nil_append, List.cons_append, humanfmt.entryTokens,
      humanfmt.renderToks, humanfmt.Tok.render, String.append_empty,
      String.append_assoc, -String.reduceAppend]
  · simp only [hc, ne_eq, not_false_eq_true, if_true, List.append_nil,
      List.nil_append, List.cons_append, humanfmt.entryTokens,
      humanfmt.renderToks, humanfmt.Tok.render, String.append_empty,
      String.append_assoc, -String.reduceAppend]

theorem level_not_known_other (l : slog.Level) (h : l.known = false) :
    ∃ s, l = .other s := by
  cases l <;> simp [slog.Level.known] at h ⊢

/-- Claim C3: the quoting rule applied to the message equals the quoting
rule applied to the component: quote and quoteKey are the same function,
the component token carries quoteKey of the component, and the message is
appended last, after a colon and space, as quote of the message. -/
theorem message_and_component_same_quoting :
    (∀ s, humanfmt.quote s = humanfmt.quoteKey s) ∧
    (∀ ent : slog.Entry, humanfmt.componentText ent false =
      humanfmt.quoteKey ent.component) ∧
    ∀ (ent : slog.Entry) (ec : Bool) (lv : String),
      humanfmt.levelText ent ec = some lv →
      ∃ ts0, humanfmt.entryTokens lv ent ec =
          ts0 ++ [humanfmt.Tok.msg (humanfmt.quote ent.message)] ∧
        humanfmt.entryHeader ent ec =
          some (humanfmt.renderToks ts0 ++
            (": " ++ humanfmt.quote ent.message)) := by
  refine ⟨fun s => rfl, fun ent => rfl, fun ent ec lv h => ?_⟩
  refine ⟨[.lvl lv, .loc (humanfmt.locText ent ec)] ++
    (if ent.component ≠ "" then [.comp (humanfmt.componentText ent ec)]
     else []) ++
    [.ts (humanfmt.formatStampMilli ent.time)], ?_, ?_⟩
  · simp [humanfmt.entryTokens]
  · rw [entryHeader_decomp ent ec lv h]
    by_cases hc : ent.component = "" <;>
      simp [humanfmt.entryTokens, humanfmt.renderToks, humanfmt.Tok.render,
        hc, String.append_assoc]

/-- Claim C7: the parenthesized component token is absent exactly when the
component is empty; when present it is unique and sits immediately after
the location token. -/
theorem component_token_exactly_when_nonempty :
    ∀ (ent : slog.Entry) (ec : Bool) (lv : String),
      humanfmt.levelText ent ec = some lv →
      ((humanfmt.entryTokens lv ent ec).countP humanfmt.Tok.isComp =
        if ent.component = "" then 0 else 1) ∧
      (ent.component = "" →
        humanfmt.entryTokens lv ent ec =
          [.lvl lv, .loc (humanfmt.locText ent ec),
           .ts (humanfmt.formatStampMilli ent.time),
           .msg (humanfmt.quote ent.message)]) ∧
      (ent.component ≠ "" →
        humanfmt.entryTokens lv ent ec =
          [.lvl lv, .loc (humanfmt.locText ent ec),
           .comp (humanfmt.componentText ent ec),
           .ts (humanfmt.formatStampMilli ent.time),
           .msg (humanfmt.quote ent.message)]) ∧
      humanfmt.entryHeader ent ec =
        some (humanfmt.renderToks (humanfmt.entryTokens lv ent ec)) := by
  intro ent ec lv h
  refine ⟨?_, ?_, ?_, entryHeader_decomp ent ec lv h⟩ <;>
    by_cases hc : ent.component = "" <;>
      simp [humanfmt.entryTokens, humanfmt.Tok.isComp, hc, List.countP_cons]

/-- Claim C8: the timestamp token is rendered by the fixed layout
Jan 02 15:04:05.000 whose day verb is two-digit and zero-padded: day 2
renders as 02, never space-padded. -/
theorem timestamp_day_two_digit_zero_padded :
    (∀ (ent : slog.Entry) (ec : Bool) (lv : String),
      humanfmt.levelText ent ec = some lv →
      humanfmt.Tok.ts (humanfmt.formatStampMilli ent.time) ∈
        humanfmt.entryTokens lv ent ec) ∧
    (∀ t : GoTime, humanfmt.formatStampMilli t =
      humanfmt.monthAbbr t.month ++ " " ++ humanfmt.pad2 t.day ++ " " ++
        humanfmt.pad2 t.hour ++ ":" ++ humanfmt.pad2 t.minute ++ ":" ++
        humanfmt.pad2 t.sec ++ "." ++ humanfmt.pad3 t.millis) ∧
    (∀ d, d < 100 →
      (humanfmt.pad2 d).length = 2 ∧
      humanfmt.pad2 d ≠ " " ++ toString d) ∧
    humanfmt.pad2 2 = "02" := by
  refine ⟨?_, fun t => rfl, by decide, rfl⟩
  intro ent ec lv _
  by_cases hc : ent.component = "" <;> simp [humanfmt.entryTokens, hc]

/-- Witness for claim C3 at a concrete entry with a component. -/
theorem message_and_component_same_quoting_witness :
    humanfmt.quote "a b" = humanfmt.quoteKey "a b" ∧
    ∃ ts0, humanfmt.entryTokens "WARN" wdata.entComp false =
        ts0 ++ [humanfmt.Tok.msg (humanfmt.quote "hi")] ∧
      humanfmt.entryHeader wdata.entComp false =
        some (humanfmt.renderToks ts0 ++ (": " ++ humanfmt.quote "hi")) :=
  ⟨message_and_component_same_quoting.1 "a b",
   message_and_component_same_quoting.2.2 wdata.entComp false "WARN" rfl⟩

/-- Witness for claim C7 at a concrete entry with a component. -/
theorem component_token_exactly_when_nonempty_witness :
    humanfmt.entryTokens "WARN" wdata.entComp false =
      [.lvl "WARN", .loc (humanfmt.locText wdata.entComp false),
       .comp (humanfmt.componentText wdata.entComp false),
       .ts (humanfmt.formatStampMilli wdata.t0),
       .msg (humanfmt.quote "hi")] :=
  (component_token_exactly_when_nonempty wdata.entComp false "WARN"
    rfl).2.2.1 (by decide)

/-- Witness for claim C8: the timestamp token of a concrete entry, and the
zero-padded rendering of day 2. -/
theorem timestamp_day_two_digit_zero_padded_witness :
    humanfmt.Tok.ts (humanfmt.formatStampMilli wdata.t0) ∈
      humanfmt.entryTokens "INFO" wdata.entPlain false ∧
    (humanfmt.pad2 2).length = 2 ∧ humanfmt.pad2 2 ≠ " " ++ toString 2 :=
  ⟨timestamp_day_two_digit_zero_padded.1 wdata.entPlain false "INFO" rfl,
   timestamp_day_two_digit_zero_padded.2.2.1 2 (by decide)⟩

/-- Counterexample for claim C2: an entry whose level lies outside the
fixed set is formatted without any fault when color is disabled, so the
claim that Format panics for both enableColor settings is false. -/
theorem unknown_level_formats_without_color :
    slog.Level.known (.other "TRACE") = false ∧
    humanfmt.Entry wdata.fv0 wdata.jm0 false wdata.entBadLevel false ≠
      none := by decide

/-- Claim C2 (amended): a level outside the fixed set is a fault exactly
when color is enabled — the color table is consulted only then; with
color disabled the unknown level text is silently formatted. -/
theorem unknown_level_panics_only_with_color :
    ∀ (fv : slogval.Map → String) (jm : slogval.Map → Option String)
      (ent : slog.Entry), ent.level.known = false →
      humanfmt.Entry fv jm false ent true = none ∧
      (humanfmt.Entry fv jm false ent false).isSome = true := by
  intro fv jm ent h
  obtain ⟨s, hs⟩ := level_not_known_other ent.level h
  constructor
  · simp [humanfmt.Entry, humanfmt.entryHeader, humanfmt.levelText,
      humanfmt.levelColor, hs]
  · have hh : humanfmt.entryHeader ent false =
        some (humanfmt.renderToks
          (humanfmt.entryTokens ent.level.string ent false)) :=
      entryHeader_decomp ent false ent.level.string rfl
    unfold humanfmt.Entry
    rw [hh]
    cases hE : slogval.Encode (humanfmt.fieldsForEncoding ent) <;> simp

/-- Witness for claim C2 (amended) at a concrete unknown level. -/
theorem unknown_level_panics_only_with_color_witness :
    humanfmt.Entry wdata.fv0 wdata.jm0 false wdata.entBadLevel true =
      none ∧
    (humanfmt.Entry wdata.fv0 wdata.jm0 false wdata.entBadLevel
      false).isSome = true :=
  unknown_level_panics_only_with_color wdata.fv0 wdata.jm0
    wdata.entBadLevel rfl

/-- Counterexample for claim C4: with the empty span sentinel, a
caller-supplied field named trace still appears in the rendered field
block, so the claim that no trace or span key appears is false. -/
theorem trace_key_despite_empty_span :
    wdata.entTraceKey.spanContext = slog.SpanContext.empty ∧
    "trace" ∈ humanfmt.entryMapKeys wdata.entTraceKey := by decide

/-- Claim C4 (amended): with the empty span sentinel the formatter
prepends nothing — the encoded field block is exactly the caller fields,
so trace or span keys appear only if the caller supplied them; with a
non-empty span context the synthetic trace and span fields appear first,
in that order, ahead of all caller-supplied fields. -/
theorem span_fields_prepended_only_when_nonempty :
    ∀ ent : slog.Entry,
      (ent.spanContext = slog.SpanContext.empty →
        humanfmt.fieldsForEncoding ent = ent.fields ∧
        humanfmt.entryMapKeys ent = ent.fields.map slogval.Field.name) ∧
      (ent.spanContext ≠ slog.SpanContext.empty →
        humanfmt.fieldsForEncoding ent =
          humanfmt.traceFields ent.spanContext ++ ent.fields ∧
        humanfmt.entryMapKeys ent =
          "trace" :: "span" :: ent.fields.map slogval.Field.name) := by
  intro ent
  constructor
  · intro h
    have hf : humanfmt.fieldsForEncoding ent = ent.fields := by
      simp [humanfmt.fieldsForEncoding, h]
    refine ⟨hf, ?_⟩
    unfold humanfmt.entryMapKeys
    rw [hf]
    cases hfs : ent.fields with
    | nil => simp [slogval.Encode]
    | cons a l => simp [slogval.Encode]
  · intro h
    have hf : humanfmt.fieldsForEncoding ent =
        humanfmt.traceFields ent.spanContext ++ ent.fields := by
      simp [humanfmt.fieldsForEncoding, h]
    refine ⟨hf, ?_⟩
    unfold humanfmt.entryMapKeys
    rw [hf]
    simp [slogval.Encode, humanfmt.traceFields]

/-- Witness for claim C4 (amended) at a concrete non-empty span
context. -/
theorem span_fields_prepended_only_when_nonempty_witness :
    humanfmt.fieldsForEncoding wdata.entSpan =
      humanfmt.traceFields ⟨1, 2, 0⟩ ++ wdata.entSpan.fields ∧
    humanfmt.entryMapKeys wdata.entSpan =
      "trace" :: "span" :: (wdata.entSpan.fields).map slogval.Field.name :=
  (span_fields_prepended_only_when_nonempty wdata.entSpan).2 (by decide)

/-- Claim C10: under the JSONTest flag, an encoded map with fewer than
three entries makes Entry fault on the out-of-range index m[2]; with at
least three entries, the third field is removed from the map, the
remainder is handed to the JSON marshaller (appended on its own line when
marshalling succeeds), and the removed field is rendered as a separate
error line. -/
theorem jsontest_mode_behaviour :
    (∀ (fv : slogval.Map → String) (jm : slogval.Map → Option String)
        (ent : slog.Entry) (ec : Bool) (m : slogval.Map),
      slogval.Encode (humanfmt.fieldsForEncoding ent) = some m →
      m.length < 3 →
      humanfmt.Entry fv jm true ent ec = none) ∧
    (∀ (fv : slogval.Map → String) (jm : slogval.Map → Option String)
        (ent : slog.Entry) (ec : Bool) (hd : String) (m : slogval.Map)
        (errF : slogval.Field),
      humanfmt.entryHeader ent ec = some hd →
      slogval.Encode (humanfmt.fieldsForEncoding ent) = some m →
      m.get? 2 = some errF →
      humanfmt.Entry fv jm true ent ec = some
        ((match jm (m.take 2 ++ m.drop 3) with
          | some s => hd ++ "\n" ++ s
          | none => hd) ++ "\n" ++ fv [⟨"error", errF.value⟩])) := by
  constructor
  · intro fv jm ent ec m hE hlen
    unfold humanfmt.Entry
    cases hh : humanfmt.entryHeader ent ec with
    | none => rfl
    | some hd =>
      rw [hE]
      simp [dif_neg (by omega : ¬ 2 < m.length)]
  · intro fv jm ent ec hd m errF hh hE hget
    obtain ⟨hlt, hval⟩ := List.get?_eq_some.mp hget
    unfold humanfmt.Entry
    rw [hh, hE]
    simp only [if_true, dif_pos hlt]
    rw [hval]

/-- Witness for claim C10: the fault at a two-field entry and the split
rendering at a three-field entry. -/
theorem jsontest_mode_behaviour_witness :
    humanfmt.Entry wdata.fv0 wdata.jm0 true wdata.entSmallMap false =
      none ∧
    humanfmt.Entry wdata.fv0 wdata.jm0 true wdata.entBigMap false =
      some ("[INFO] \x7bf.go:1\x7d Jan 01 00:00:00.000: m" ++ "\n" ++
        "E") := by
  constructor
  · exact jsontest_mode_behaviour.1 wdata.fv0 wdata.jm0 wdata.entSmallMap
      false wdata.entSmallMap.fields rfl (by decide)
  · have h := jsontest_mode_behaviour.2 wdata.fv0 wdata.jm0 wdata.entBigMap
      false "[INFO] \x7bf.go:1\x7d Jan 01 00:00:00.000: m"
      wdata.entBigMap.fields ⟨"c", .scalar "3"⟩ (by decide) rfl rfl
    exact h

/-- Claim C1 (code bug): Sync reports on the diagnostic side channel even
when the flush succeeds — with a nil flush error the println still fires,
both for a non-file sink and for a plain opened file. -/
theorem sync_reports_even_on_success :
    syncwriter.Writer.Sync ⟨⟨true, false, none⟩⟩ "stderr" =
      some "failed to sync stderr: <nil>" ∧
    syncwriter.Writer.Sync ⟨⟨true, true, none⟩⟩ "stdout" =
      some "failed to sync stdout: <nil>" := by decide

/-- Claim C6: a flush failure on a plain opened file with one of the
codes EINVAL, ENOTTY or EBADF is swallowed: Sync returns silently, with
no diagnostic report. -/
theorem sync_swallows_file_unsupported_errors :
    ∀ (name : String) (e : syncwriter.GoErr),
      (e = .einval ∨ e = .enotty ∨ e = .ebadf) →
      syncwriter.Writer.Sync ⟨⟨true, true, some e⟩⟩ name = none := by
  intro name e he
  rcases he with rfl | rfl | rfl <;> rfl

/-- Witness for claim C6 at the EINVAL code. -/
theorem sync_swallows_file_unsupported_errors_witness :
    syncwriter.Writer.Sync ⟨⟨true, true, some .einval⟩⟩ "stdout" = none :=
  sync_swallows_file_unsupported_errors "stdout" .einval (Or.inl rfl)

theorem readArr_append_lt {α : Type} (h h2 : gomem.Store α) (i : Nat)
    (hi : i < h.length) :
    gomem.readArr (h ++ h2) i = gomem.readArr h i := by
  induction h generalizing i with
  | nil => simp at hi
  | cons a t ih =>
    cases i with
    | zero => rfl
    | succ n => exact ih n (by simpa using hi)

theorem readArr_append_self {α : Type} (h : gomem.Store α) (a : List α) :
    gomem.readArr (h ++ [a]) h.length = a := by
  induction h with
  | nil => rfl
  | cons b t ih => simpa using ih

theorem readArr_set_ne {α : Type} (h : gomem.Store α) (i j : Nat)
    (a : List α) (hne : i ≠ j) :
    gomem.readArr (gomem.setArr h j a) i = gomem.readArr h i := by
  induction h generalizing i j with
  | nil => rfl
  | cons b t ih =>
    cases j with
    | zero =>
      cases i with
      | zero => exact absurd rfl hne
      | succ n => rfl
    | succ m =>
      cases i with
      | zero => rfl
      | succ n => exact ih n m (fun hh => hne (by rw [hh]))

theorem readArr_set_self {α : Type} (h : gomem.Store α) (j : Nat)
    (a : List α) (hj : j < h.length) :
    gomem.readArr (gomem.setArr h j a) j = a := by
  induction h generalizing j with
  | nil => simp at hj
  | cons b t ih =>
    cases j with
    | zero => rfl
    | succ m => exact ih m (by simpa using hj)

theorem sliceAppend_in_place {α : Type} (h : gomem.Store α)
    (s : gomem.Slice) (xs : List α)
    (hc : s.len + xs.length ≤ s.cap) :
    gomem.sliceAppend h s xs =
      (gomem.setArr h s.arr
        (gomem.writeAt (gomem.readArr h s.arr) (s.off + s.len) xs),
       ⟨s.arr, s.off, s.len + xs.length, s.cap⟩) := by
  unfold gomem.sliceAppend
  rw [if_pos hc]

theorem sliceAppend_realloc {α : Type} (h : gomem.Store α)
    (s : gomem.Slice) (xs : List α)
    (hc : ¬ s.len + xs.length ≤ s.cap) :
    gomem.sliceAppend h s xs =
      (h ++ [gomem.readSlice h s ++ xs],
       ⟨h.length, 0, (gomem.readSlice h s ++ xs).length,
        (gomem.readSlice h s ++ xs).length⟩) := by
  unfold gomem.sliceAppend
  rw [if_neg hc]

theorem prependFields_eq {α : Type} (h : gomem.Store α) (tf : List α)
    (s : gomem.Slice) :
    gomem.prependFields h tf s =
      gomem.sliceAppend (h ++ [tf])
        ⟨h.length, 0, tf.length, tf.length⟩
        (gomem.readSlice (h ++ [tf]) s) := rfl

theorem readSlice_set_ne {α : Type} (h : gomem.Store α) (i : Nat)
    (a : List α) (s : gomem.Slice) (hne : s.arr ≠ i) :
    gomem.readSlice (gomem.setArr h i a) s = gomem.readSlice h s := by
  unfold gomem.readSlice
  rw [readArr_set_ne h s.arr i a hne]

theorem readSlice_append_lt {α : Type} (h h2 : gomem.Store α)
    (s : gomem.Slice) (hs : s.arr < h.length) :
    gomem.readSlice (h ++ h2) s = gomem.readSlice h s := by
  unfold gomem.readSlice
  rw [readArr_append_lt h h2 s.arr hs]

theorem prependFields_spec {α : Type} (h : gomem.Store α) (tf : List α)
    (s : gomem.Slice) (hv : s.arr < h.length) :
    gomem.readSlice (gomem.prependFields h tf s).1 s =
      gomem.readSlice h s ∧
    gomem.readSlice (gomem.prependFields h tf s).1
        (gomem.prependFields h tf s).2 =
      tf ++ gomem.readSlice h s := by
  have hrs : gomem.readSlice (h ++ [tf]) s = gomem.readSlice h s :=
    readSlice_append_lt h [tf] s hv
  have hm : gomem.readArr (h ++ [tf]) h.length = tf :=
    readArr_append_self h tf
  by_cases hc : gomem.readSlice h s = []
  · rw [prependFields_eq, sliceAppend_in_place (h ++ [tf])
      ⟨h.length, 0, tf.length, tf.length⟩ (gomem.readSlice (h ++ [tf]) s)
      (by rw [hrs, hc]; simp)]
    dsimp only
    constructor
    · rw [readSlice_set_ne _ _ _ s (Nat.ne_of_lt hv)]
      exact hrs
    · rw [hrs, hc, hm]
      have hw : gomem.writeAt tf (0 + tf.length) ([] : List α) = tf := by
        simp [gomem.writeAt]
      rw [hw]
      unfold gomem.readSlice
      rw [readArr_set_self (h ++ [tf]) h.length tf (by simp)]
      simp
  · rw [prependFields_eq, sliceAppend_realloc (h ++ [tf])
      ⟨h.length, 0, tf.length, tf.length⟩ (gomem.readSlice (h ++ [tf]) s)
      (by
        rw [hrs]
        have hne : (gomem.readSlice h s).length ≠ 0 := by
          intro h0
          exact hc (List.eq_nil_of_length_eq_zero h0)
        dsimp only
        omega)]
    have hsl : gomem.readSlice (h ++ [tf])
        ⟨h.length, 0, tf.length, tf.length⟩ = tf := by
      unfold gomem.readSlice
      simp [hm]
    dsimp only
    constructor
    · rw [readSlice_append_lt (h ++ [tf]) _ s (by simp; omega)]
      exact hrs
    · rw [hsl, hrs]
      unfold gomem.readSlice
      rw [readArr_append_self]
      simp

/-- Claim C5: the trace and span injection is copy-on-prepend — in the Go
memory model, append of the caller fields onto the fresh two-element
slice literal never writes into the backing array of the caller fields
slice: after the operation the caller slice reads unchanged, while the
new slice reads the synthetic fields followed by the caller fields. -/
theorem trace_prepend_copies_without_mutation :
    ∀ (h : gomem.Store slogval.Field) (sc : slog.SpanContext)
      (fields : gomem.Slice), fields.arr < h.length →
      gomem.readSlice
          (gomem.prependFields h (humanfmt.traceFields sc) fields).1
          fields = gomem.readSlice h fields ∧
      gomem.readSlice
          (gomem.prependFields h (humanfmt.traceFields sc) fields).1
          (gomem.prependFields h (humanfmt.traceFields sc) fields).2 =
        humanfmt.traceFields sc ++ gomem.readSlice h fields :=
  fun h sc fields hv =>
    prependFields_spec h (humanfmt.traceFields sc) fields hv

/-- Witness for claim C5 at a concrete one-array heap. -/
theorem trace_prepend_copies_without_mutation_witness :
    gomem.readSlice
        (gomem.prependFields [[(⟨"k", .scalar "v"⟩ : slogval.Field)]]
          (humanfmt.traceFields ⟨1, 2, 0⟩) ⟨0, 0, 1, 1⟩).1
        ⟨0, 0, 1, 1⟩ =
      gomem.readSlice [[(⟨"k", .scalar "v"⟩ : slogval.Field)]]
        ⟨0, 0, 1, 1⟩ ∧
    gomem.readSlice
        (gomem.prependFields [[(⟨"k", .scalar "v"⟩ : slogval.Field)]]
          (humanfmt.traceFields ⟨1, 2, 0⟩) ⟨0, 0, 1, 1⟩).1
        (gomem.prependFields [[(⟨"k", .scalar "v"⟩ : slogval.Field)]]
          (humanfmt.traceFields ⟨1, 2, 0⟩) ⟨0, 0, 1, 1⟩).2 =
      humanfmt.traceFields ⟨1, 2, 0⟩ ++
        gomem.readSlice [[(⟨"k", .scalar "v"⟩ : slogval.Field)]]
          ⟨0, 0, 1, 1⟩ :=
  trace_prepend_copies_without_mutation
    [[(⟨"k", .scalar "v"⟩ : slogval.Field)]] ⟨1, 2, 0⟩ ⟨0, 0, 1, 1⟩
    (by decide)

namespace syncmodel

theorem upd_self (f : Nat → TSt) (t : Nat) (st : TSt) :
    upd f t st t = st := by
  simp [upd]

theorem upd_ne (f : Nat → TSt) (t : Nat) (st : TSt) (u : Nat)
    (h : u ≠ t) : upd f t st u = f u := by
  simp [upd, h]

theorem both_busy_eq {s : Sys} (hM : InvM s) {t u : Nat}
    (ht : (s.th t).phase ≠ .idle) (hu : (s.th u).phase ≠ .idle) :
    t = u := by
  have h1 := hM t ht
  have h2 := hM u hu
  exact Option.some.inj (h1.symm.trans h2)

theorem idle_of_owner_none {s : Sys} (hM : InvM s)
    (how : s.owner = none) (t : Nat) : (s.th t).phase = .idle := by
  by_contra hcon
  exact Option.noConfusion (how ▸ hM t hcon)

theorem invM_preserved {s s' : Sys} (hM : InvM s) (hstep : Step s s') :
    InvM s' := by
  cases hstep with
  | lockWrite t p rest hph hpr how =>
    intro u hu
    by_cases hut : u = t
    · subst hut
      rfl
    · simp only [upd, if_neg hut] at hu
      exact absurd (hM u hu) (by rw [how]; intro hcon; cases hcon)
  | writeByte t dn b rem hph =>
    intro u hu
    by_cases hut : u = t
    · subst hut
      exact hM u (by rw [hph]; intro hcon; cases hcon)
    · simp only [upd, if_neg hut] at hu
      exact hM u hu
  | unlockWrite t dn hph =>
    intro u hu
    by_cases hut : u = t
    · subst hut
      simp [upd] at hu
    · simp only [upd, if_neg hut] at hu
      exact absurd (both_busy_eq hM
        (by rw [hph]; intro hcon; cases hcon) hu).symm hut
  | lockSync t rest hph hpr how =>
    intro u hu
    by_cases hut : u = t
    · subst hut
      rfl
    · simp only [upd, if_neg hut] at hu
      exact absurd (hM u hu) (by rw [how]; intro hcon; cases hcon)
  | unlockSync t hph =>
    intro u hu
    by_cases hut : u = t
    · subst hut
      simp [upd] at hu
    · simp only [upd, if_neg hut] at hu
      exact absurd (both_busy_eq hM
        (by rw [hph]; intro hcon; cases hcon) hu).symm hut

end syncmodel

namespace syncmodel

theorem idx_le_preserved {s : Sys} {completed : List Block}
    (hidx : ∀ b ∈ completed, b.i < (s.th b.t).next)
    (f : Nat → TSt) (hf : ∀ u, (s.th u).next ≤ (f u).next) :
    ∀ b ∈ completed, b.i < (f b.t).next :=
  fun b hb => Nat.lt_of_lt_of_le (hidx b hb) (hf b.t)

theorem upd_next_le (s : Sys) (t : Nat) (st : TSt)
    (hle : (s.th t).next ≤ st.next) :
    ∀ u, (s.th u).next ≤ (upd s.th t st u).next := by
  intro u
  by_cases hut : u = t
  · subst hut
    simpa [upd] using hle
  · simp [upd, hut]

theorem renderBlock_snoc (t i : Nat) (dn : List Nat) (b : Nat) :
    renderBlock ⟨t, i, dn ++ [b]⟩ =
      renderBlock ⟨t, i, dn⟩ ++ [(t, i, b)] := by
  simp [renderBlock]

theorem inv_preserved {s s' : Sys} (hI : Inv s) (hstep : Step s s') :
    Inv s' := by
  obtain ⟨hM, hB⟩ := hI
  refine ⟨invM_preserved hM hstep, ?_⟩
  obtain ⟨completed, cur, hbuf, hidx, hnodup, hcur⟩ := hB
  cases hstep with
  | lockWrite t p rest hph hpr how =>
    have hcv : cur = none := by
      cases cur with
      | none => rfl
      | some bb =>
        obtain ⟨hbne, hbi, rem, hbph⟩ := hcur
        rw [idle_of_owner_none hM how bb.t] at hbph
        cases hbph
    subst hcv
    refine ⟨completed, none, hbuf, ?_, hnodup, ?_⟩
    · exact idx_le_preserved hidx _ (upd_next_le s t _ (Nat.le_refl _))
    · intro u dn' rem' hw
      by_cases hut : u = t
      · subst hut
        simp only [upd, if_pos rfl] at hw
        cases hw
        rfl
      · simp only [upd, if_neg hut] at hw
        rw [idle_of_owner_none hM how u] at hw
        cases hw
  | writeByte t dn b rem hph =>
    cases cur with
    | none =>
      have hdn : dn = [] := hcur t dn (b :: rem) hph
      subst hdn
      refine ⟨completed, some ⟨t, (s.th t).next, [b]⟩, ?_, ?_, hnodup,
        by simp, by simp [upd], ⟨rem, by simp [upd]⟩⟩
      · rw [hbuf]
        simp [renderBlock]
      · exact idx_le_preserved hidx _ (upd_next_le s t _ (Nat.le_refl _))
    | some bb =>
      obtain ⟨bt, bi, bdata⟩ := bb
      obtain ⟨hbne, hbi, rem', hbph⟩ := hcur
      simp only at hbne hbi hbph
      have hbt : bt = t := both_busy_eq hM
        (by rw [hbph]; intro hcon; cases hcon)
        (by rw [hph]; intro hcon; cases hcon)
      subst hbt
      have hph2 := hph.symm.trans hbph
      injection hph2 with hdata hrem
      subst hdata
      subst hbi
      refine ⟨completed, some ⟨bt, (s.th bt).next, dn ++ [b]⟩, ?_, ?_,
        hnodup, by simp, by simp [upd], ⟨rem, by simp [upd]⟩⟩
      · rw [hbuf]
        simp [renderBlock]
      · exact idx_le_preserved hidx _ (upd_next_le s bt _ (Nat.le_refl _))
  | unlockWrite t dn hph =>
    cases cur with
    | none =>
      refine ⟨completed, none, hbuf, ?_, hnodup, ?_⟩
      · exact idx_le_preserved hidx _
          (upd_next_le s t _ (Nat.le_succ _))
      · intro u dn' rem' hw
        by_cases hut : u = t
        · subst hut
          simp only [upd, if_pos rfl] at hw
          cases hw
        · simp only [upd, if_neg hut] at hw
          exact absurd (both_busy_eq hM
            (by rw [hph]; intro hcon; cases hcon)
            (by rw [hw]; intro hcon; cases hcon)).symm hut
    | some bb =>
      obtain ⟨bt, bi, bdata⟩ := bb
      obtain ⟨hbne, hbi, rem', hbph⟩ := hcur
      simp only at hbne hbi hbph
      have hbt : bt = t := both_busy_eq hM
        (by rw [hbph]; intro hcon; cases hcon)
        (by rw [hph]; intro hcon; cases hcon)
      subst hbt
      have hph2 := hph.symm.trans hbph
      injection hph2 with hdata hrem
      subst hdata
      subst hbi
      refine ⟨completed ++ [⟨bt, (s.th bt).next, dn⟩], none, ?_, ?_, ?_,
        ?_⟩
      · rw [hbuf]
        simp
      · intro b hb
        rcases List.mem_append.mp hb with hb | hb
        · exact idx_le_preserved hidx _
            (upd_next_le s bt _ (Nat.le_succ _)) b hb
        · simp at hb
          subst hb
          simp [upd]
      · rw [List.map_append]
        refine List.Nodup.append hnodup (by simp) ?_
        intro a ha hb
        simp at hb
        obtain ⟨b', hb', htag⟩ := List.mem_map.mp ha
        rw [hb] at htag
        have h1 := congrArg Prod.fst htag
        have h2 := congrArg Prod.snd htag
        simp [tag] at h1 h2
        have := hidx b' hb'
        rw [h1] at this
        omega
      · intro u dn' rem' hw
        by_cases hut : u = bt
        · subst hut
          simp only [upd, if_pos rfl] at hw
          cases hw
        · simp only [upd, if_neg hut] at hw
          exact absurd (both_busy_eq hM
            (by rw [hph]; intro hcon; cases hcon)
            (by rw [hw]; intro hcon; cases hcon)).symm hut
  | lockSync t rest hph hpr how =>
    have hcv : cur = none := by
      cases cur with
      | none => rfl
      | some bb =>
        obtain ⟨hbne, hbi, rem, hbph⟩ := hcur
        rw [idle_of_owner_none hM how bb.t] at hbph
        cases hbph
    subst hcv
    refine ⟨completed, none, hbuf, ?_, hnodup, ?_⟩
    · exact idx_le_preserved hidx _ (upd_next_le s t _ (Nat.le_refl _))
    · intro u dn' rem' hw
      by_cases hut : u = t
      · subst hut
        simp only [upd, if_pos rfl] at hw
        cases hw
      · simp only [upd, if_neg hut] at hw
        rw [idle_of_owner_none hM how u] at hw
        cases hw
  | unlockSync t hph =>
    have hcv : cur = none := by
      cases cur with
      | none => rfl
      | some bb =>
        obtain ⟨hbne, hbi, rem, hbph⟩ := hcur
        have hbt : bb.t = t := both_busy_eq hM
          (by rw [hbph]; intro hcon; cases hcon)
          (by rw [hph]; intro hcon; cases hcon)
        rw [hbt, hph] at hbph
        cases hbph
    subst hcv
    refine ⟨completed, none, hbuf, ?_, hnodup, ?_⟩
    · exact idx_le_preserved hidx _ (upd_next_le s t _ (Nat.le_succ _))
    · intro u dn' rem' hw
      by_cases hut : u = t
      · subst hut
        simp only [upd, if_pos rfl] at hw
        cases hw
      · simp only [upd, if_neg hut] at hw
        exact absurd (both_busy_eq hM
          (by rw [hph]; intro hcon; cases hcon)
          (by rw [hw]; intro hcon; cases hcon)).symm hut

end syncmodel

namespace syncmodel

theorem inv_init (progs : Nat → List Op) : Inv (init progs) := by
  constructor
  · intro t ht
    exact absurd rfl ht
  · refine ⟨[], none, by simp [init], by simp, by simp, ?_⟩
    intro u dn rem hw
    cases hw

theorem inv_reaches (progs : Nat → List Op) {s : Sys}
    (h : Reaches (init progs) s) : Inv s := by
  induction h with
  | refl => exact inv_init progs
  | tail hR hstep ih => exact inv_preserved ih hstep

theorem tagOf_mem_renderBlock {x : Nat × Nat × Nat} {b : Block}
    (hx : x ∈ renderBlock b) : tagOf x = tag b := by
  obtain ⟨a, _, rfl⟩ := List.mem_map.mp hx
  rfl

theorem contiguous_flatten (bs : List Block) (tg : Nat × Nat)
    (hnd : (bs.map tag).Nodup) :
    ContiguousTag ((bs.map renderBlock).flatten) tg := by
  induction bs with
  | nil => exact ⟨[], [], [], by simp, by simp, by simp, by simp⟩
  | cons b bs ih =>
    rw [List.map_cons, List.nodup_cons] at hnd
    obtain ⟨hnotmem, hnd'⟩ := hnd
    by_cases htg : tag b = tg
    · refine ⟨[], renderBlock b, (bs.map renderBlock).flatten, by simp,
        ?_, by simp, ?_⟩
      · intro x hx
        rw [tagOf_mem_renderBlock hx, htg]
      · intro x hx
        obtain ⟨l, hl, hxl⟩ := List.mem_flatten.mp hx
        obtain ⟨b', hb', rfl⟩ := List.mem_map.mp hl
        rw [tagOf_mem_renderBlock hxl]
        intro hcon
        exact hnotmem (by
          rw [← htg] at hcon
          exact hcon ▸ List.mem_map_of_mem tag hb')
    · obtain ⟨pre, mid, post, heq, hmid, hpre, hpost⟩ := ih hnd'
      refine ⟨renderBlock b ++ pre, mid, post, ?_, hmid, ?_, hpost⟩
      · simp [heq]
      · intro x hx
        rcases List.mem_append.mp hx with hx | hx
        · rw [tagOf_mem_renderBlock hx]
          exact htg
        · exact hpre x hx

end syncmodel

/-- Claim C9: all Write and Sync calls on one synchronized writer are
serialized by its mutex: in every reachable state of the interleaving
semantics no thread is inside a Sync while another is inside a Write, and
the bytes of each individual Write call occupy one contiguous run of the
destination buffer. -/
theorem write_calls_fully_serialized :
    ∀ (progs : Nat → List syncmodel.Op) (s : syncmodel.Sys),
      syncmodel.Reaches (syncmodel.init progs) s →
      (∀ t1 t2 dn rem, (s.th t1).phase = .writing dn rem →
        (s.th t2).phase ≠ .syncing) ∧
      (∀ tg : Nat × Nat, syncmodel.ContiguousTag s.buf tg) := by
  intro progs s hs
  obtain ⟨hM, completed, cur, hbuf, hidx, hnodup, hcur⟩ :=
    syncmodel.inv_reaches progs hs
  constructor
  · intro t1 t2 dn rem h1 h2
    have h12 := syncmodel.both_busy_eq hM
      (by rw [h1]; intro hcon; cases hcon)
      (by rw [h2]; intro hcon; cases hcon)
    subst h12
    rw [h1] at h2
    cases h2
  · intro tg
    cases cur with
    | none =>
      have hc := syncmodel.contiguous_flatten completed tg hnodup
      rw [hbuf]
      simpa using hc
    | some bb =>
      obtain ⟨hbne, hbi, rem', hbph⟩ := hcur
      have hfresh : syncmodel.tag bb ∉ completed.map syncmodel.tag := by
        intro hmem
        obtain ⟨b', hb', htag⟩ := List.mem_map.mp hmem
        have h1 := congrArg Prod.fst htag
        have h2 := congrArg Prod.snd htag
        simp [syncmodel.tag] at h1 h2
        have := hidx b' hb'
        rw [h1] at this
        omega
      have hnd2 :
          ((completed ++ [bb]).map syncmodel.tag).Nodup := by
        rw [List.map_append]
        refine List.Nodup.append hnodup (by simp) ?_
        intro a ha hb
        simp at hb
        exact hfresh (hb ▸ ha)
      have hbuf2 : s.buf =
          ((completed ++ [bb]).map syncmodel.renderBlock).flatten := by
        rw [hbuf]
        simp
      rw [hbuf2]
      exact syncmodel.contiguous_flatten (completed ++ [bb]) tg hnd2

/-- Witness for claim C9: a two-step schedule of one thread locking and
transferring one byte, reached from the initial system. -/
theorem write_calls_fully_serialized_witness :
    syncmodel.ContiguousTag [(0, 0, 7)] (0, 0) := by
  have hch := Relation.ReflTransGen.tail
    (Relation.ReflTransGen.single
      (syncmodel.Step.lockWrite
        (syncmodel.init
          (fun u => if u = 0 then [syncmodel.Op.write [7, 8]] else []))
        0 [7, 8] [] rfl rfl rfl))
    (syncmodel.Step.writeByte _ 0 [] 7 [8] rfl)
  exact (write_calls_fully_serialized _ _ hch).2 (0, 0)
